import Mathlib

/-!
Verification of the N-Queens genetic-algorithm engine
(`src/algorithms/nQueensWorker.ts`) and its caller-side parameter
validator (`src/hooks/useNQueensWorker.ts`).

The worker is shallowly embedded as pure Lean functions.  JavaScript
numbers are modelled as `ℤ` (genome entries, fitness values, counters)
and `ℚ` (rates and the outcomes of `Math.random()`); the global
`Math.random()` stream is an explicit list of rationals threaded through
every function.  The one loop of the worker without a structural bound
(the PMX mapping-chain `while` loop) is modelled with explicit fuel and
an `Option` result, `none` meaning the loop is still running when the
fuel is exhausted.
-/

namespace NQueens

/-- A stream of outcomes of `Math.random()`.  Each call to
`Math.random()` yields a value in `[0, 1)`; entries of the ambient list
outside that interval are read as `0` so that every `Rng` value denotes
a legal sequence of draws, and every legal sequence of draws is denoted
by some `Rng` value (an exhausted list keeps yielding `0`). -/
structure Rng where
  vals : List ℚ
deriving DecidableEq, Repr

/-- Draw one `Math.random()` outcome. -/
def Rng.next : Rng → ℚ × Rng
  | ⟨[]⟩ => (0, ⟨[]⟩)
  | ⟨v :: vs⟩ => (if 0 ≤ v ∧ v < 1 then v else 0, ⟨vs⟩)

/-- Floor of a nonnegative rational, as used by `Math.floor` on the
products `Math.random() * k` (which are always nonnegative). -/
def ratFloor (q : ℚ) : ℤ := q.num / q.den

/-- Model of `Math.floor(Math.random() * len)`: turn one random draw into an
index below `len`. -/
def randIndex (r : ℚ) (len : ℕ) : ℕ := (ratFloor (r * len)).toNat

/-- An `Individual`: a genome (one column per row) plus its cached fitness. -/
structure Individual where
  genome : List ℤ
  fitness : ℤ
deriving DecidableEq, Repr

/-- The two selection strategies. -/
inductive SelStrategy where
  | rouletteWheel
  | tournament
deriving DecidableEq, Repr

/-- The `NQueensParams` record, as stored by the worker.  Sizes and counters are
integers (the UI produces them with `parseInt`); the two rates are
rationals. -/
structure Params where
  boardSize : ℕ
  populationSize : ℕ
  selectionStrategy : SelStrategy
  tournamentSize : ℕ
  crossoverRate : ℚ
  mutationRate : ℚ
  maxGenerations : ℕ
deriving DecidableEq, Repr

/-- The worker's module-level default parameters. -/
def defaultParams : Params :=
  { boardSize := 8
    populationSize := 100
    selectionStrategy := .rouletteWheel
    tournamentSize := 5
    crossoverRate := 4/5
    mutationRate := 1/5
    maxGenerations := 1000 }

/-- Placeholder individual standing for a JavaScript `undefined` read;
reachable states never feed it back into the population. -/
def junkInd : Individual := ⟨[], 0⟩

/-- The boolean attack test of the inner loop of `calculateFitness`:
same column, or same diagonal (`|i - j| == |genome[i] - genome[j]|`). -/
def attackB (g : List ℤ) (i j : ℕ) : Bool :=
  g.getD i 0 == g.getD j 0 ||
    ((i : ℤ) - (j : ℤ)).natAbs == (g.getD i 0 - g.getD j 0).natAbs

/-- Conflict count of `calculateFitness`: the nested loop over
`0 ≤ i < j < n`. -/
def conflictsCount (g : List ℤ) : ℕ :=
  ((List.range g.length).map (fun i =>
    ((List.range g.length).filter (fun j => i < j && attackB g i j)).length)).sum

/-- The quantity `maxPairs = n * (n - 1) / 2` (exact: the product is even). -/
def maxPairs (n : ℕ) : ℕ := n * (n - 1) / 2

/-- The function `calculateFitness`: `maxPairs - conflicts`. -/
def calculateFitness (g : List ℤ) : ℤ :=
  (maxPairs g.length : ℤ) - (conflictsCount g : ℤ)

/-- The loop body of `createRandomIndividual`: `k` times, pick a random
index into `available`, append that value to the genome and splice it
out of `available`. -/
def createRandomGo : ℕ → List ℤ → List ℤ → Rng → List ℤ × Rng
  | 0, acc, _, rng => (acc, rng)
  | k + 1, acc, available, rng =>
    let idx := randIndex rng.next.1 available.length
    createRandomGo k (acc ++ [available.getD idx 0]) (available.eraseIdx idx) rng.next.2

/-- The function `createRandomIndividual`: draw a permutation of `[0, n)` without
replacement from a shrinking candidate list. -/
def createRandomIndividual (n : ℕ) (rng : Rng) : Individual × Rng :=
  let res := createRandomGo n [] ((List.range n).map Int.ofNat) rng
  (⟨res.1, 0⟩, res.2)

/-- The function `evaluatePopulation`: recompute every cached fitness. -/
def evaluatePopulation (pop : List Individual) : List Individual :=
  pop.map (fun ind => ⟨ind.genome, calculateFitness ind.genome⟩)

/-- The recursion of `validateGenome`: scan the genome keeping the `Set`
of values seen so far, rejecting out-of-range or repeated values; at the
end compare the number of distinct values with the genome length. -/
def validateGo (n : ℕ) : List ℤ → List ℤ → Bool
  | [], seen => seen.length == n
  | v :: rest, seen =>
    if v < 0 || (n : ℤ) ≤ v || seen.contains v then false
    else validateGo n rest (v :: seen)

/-- The function `validateGenome`: true iff the genome is a valid permutation of
`[0, genome.length)`. -/
def validateGenome (g : List ℤ) : Bool := validateGo g.length g []

/-- The property "g is a permutation of `[0, n)`". -/
def PermGenome (n : ℕ) (g : List ℤ) : Prop :=
  g.Perm ((List.range n).map Int.ofNat)

instance (n : ℕ) (g : List ℤ) : Decidable (PermGenome n g) := by
  unfold PermGenome; infer_instance

/-- The subtraction walk of `rouletteWheelSelection`: subtract each
fitness in turn, stopping at the first individual that takes the
running value to `≤ 0`; `none` when the walk falls off the end. -/
def rouletteWalk : List Individual → ℚ → Option Individual
  | [], _ => none
  | ind :: rest, v =>
    if v - (ind.fitness : ℚ) ≤ 0 then some ind
    else rouletteWalk rest (v - (ind.fitness : ℚ))

/-- The function `rouletteWheelSelection`.  A `none` result corresponds to the
JavaScript code reading `undefined` out of an empty population. -/
def rouletteWheelSelection (pop : List Individual) (rng : Rng) :
    Option Individual × Rng :=
  let totalFitness : ℤ := (pop.map (fun ind => ind.fitness)).sum
  if totalFitness = 0 then
    (pop.get? (randIndex rng.next.1 pop.length), rng.next.2)
  else
    match rouletteWalk pop (rng.next.1 * (totalFitness : ℚ)) with
    | some ind => (some ind, rng.next.2)
    | none => (pop.get? (pop.length - 1), rng.next.2)

/-- The rejection loop of `tournamentSelection`, drawing random indices
until `k` distinct ones have been collected.  The loop has no structural
bound (a repeating random source never finishes), so it takes fuel. -/
def drawDistinct (len k : ℕ) : ℕ → List ℕ → Rng → Option (List ℕ × Rng)
  | 0, acc, rng => if k ≤ acc.length then some (acc, rng) else none
  | fuel + 1, acc, rng =>
    if k ≤ acc.length then some (acc, rng)
    else
      let idx := randIndex rng.next.1 len
      if acc.contains idx then drawDistinct len k fuel acc rng.next.2
      else drawDistinct len k fuel (acc ++ [idx]) rng.next.2

/-- The best-of-contestants scan of `tournamentSelection` (`best` starts
out `null`). -/
def bestOf (contestants : List Individual) : Option Individual :=
  contestants.foldl
    (fun best c =>
      match best with
      | none => some c
      | some b => if b.fitness < c.fitness then some c else some b)
    none

/-- The function `tournamentSelection`: sample `min(tournamentSize, len)` distinct
individuals, return the fittest.  `none` when the rejection loop runs
out of fuel, or when the tournament is empty (the JavaScript `best!`
would be `null`). -/
def tournamentSelection (p : Params) (pop : List Individual) (rng : Rng)
    (fuel : ℕ) : Option (Individual × Rng) :=
  let k := min p.tournamentSize pop.length
  match drawDistinct pop.length k fuel [] rng with
  | none => none
  | some res =>
    match bestOf (res.1.map (fun i => pop.getD i junkInd)) with
    | none => none
    | some best => some (best, res.2)

/-- The function `selectParents`: two draws with the configured strategy. -/
def selectParents (p : Params) (pop : List Individual) (rng : Rng)
    (fuel : ℕ) : Option (Individual × Individual × Rng) :=
  match p.selectionStrategy with
  | .rouletteWheel =>
    let s1 := rouletteWheelSelection pop rng
    match s1.1 with
    | none => none
    | some p1 =>
      let s2 := rouletteWheelSelection pop s1.2
      match s2.1 with
      | none => none
      | some p2 => some (p1, p2, s2.2)
  | .tournament =>
    match tournamentSelection p pop rng fuel with
    | none => none
    | some r1 =>
      match tournamentSelection p pop r1.2 fuel with
      | none => none
      | some r2 => some (r1.1, r2.1, r2.2)

/-- Model of `mapping.get(v) || v`: JavaScript `||` falls back not only when the
key is absent but also when the mapped value is `0` (falsy). -/
def jsOrSelf (o : Option ℤ) (v : ℤ) : ℤ :=
  match o with
  | none => v
  | some x => if x = 0 then v else x

/-- One step of the mapping chain: `valueToMap = mapping.get(valueToMap) || valueToMap`. -/
def mapStep (mapping : List (ℤ × ℤ)) (v : ℤ) : ℤ :=
  jsOrSelf (mapping.lookup v) v

/-- The `while (childGenome.includes(valueToMap))` loop of `crossover`,
with fuel: `none` means the loop is still running after `fuel` steps. -/
def chainResolve (mapping : List (ℤ × ℤ)) (child : List ℤ) : ℕ → ℤ → Option ℤ
  | 0, v => if child.contains v then none else some v
  | fuel + 1, v =>
    if child.contains v then chainResolve mapping child fuel (mapStep mapping v)
    else some v

/-- The fill loop of `crossover` (step 3): walk the positions in order,
skipping the copied segment, resolving each `parent2` value through the
mapping chain and writing it into the child. -/
def pmxFill (mapping : List (ℤ × ℤ)) (p2genome : List ℤ) (point1 point2 : ℕ)
    (fuel : ℕ) : List ℕ → List ℤ → Option (List ℤ)
  | [], child => some child
  | i :: rest, child =>
    if point1 ≤ i ∧ i ≤ point2 then pmxFill mapping p2genome point1 point2 fuel rest child
    else
      match chainResolve mapping child fuel (p2genome.getD i 0) with
      | none => none
      | some v => pmxFill mapping p2genome point1 point2 fuel rest (child.set i v)

/-- The function `crossover` (PMX).  With probability `1 - crossoverRate` return a
copy of parent 1; otherwise copy a random segment of parent 1 and fill
the rest from parent 2 through the segment mapping. -/
def crossover (p : Params) (parent1 parent2 : Individual) (rng : Rng)
    (fuel : ℕ) : Option Individual × Rng :=
  let rng1 := rng.next.2
  if p.crossoverRate < rng.next.1 then (some ⟨parent1.genome, 0⟩, rng1)
  else
    let n := p.boardSize
    let point1 := randIndex rng1.next.1 (n - 1)
    let rng2 := rng1.next.2
    let point2 := randIndex rng2.next.1 (n - point1 - 1) + point1 + 1
    let rng3 := rng2.next.2
    let child0 := (List.range n).map (fun i =>
      if point1 ≤ i ∧ i ≤ point2 then parent1.genome.getD i 0 else (-1 : ℤ))
    let mapping := (List.range n).foldl (fun m i =>
      if point1 ≤ i ∧ i ≤ point2 then
        (parent1.genome.getD i 0, parent2.genome.getD i 0) :: m
      else m) []
    match pmxFill mapping parent2.genome point1 point2 fuel (List.range n) child0 with
    | none => (none, rng3)
    | some g => (some ⟨g, 0⟩, rng3)

/-- The function `mutate`: with probability `mutationRate`, swap the values at two
random positions. -/
def mutate (p : Params) (ind : Individual) (rng : Rng) : Individual × Rng :=
  let rng1 := rng.next.2
  if rng.next.1 ≤ p.mutationRate then
    let pos1 := randIndex rng1.next.1 p.boardSize
    let rng2 := rng1.next.2
    let pos2 := randIndex rng2.next.1 p.boardSize
    let temp := ind.genome.getD pos1 0
    (⟨(ind.genome.set pos1 (ind.genome.getD pos2 0)).set pos2 temp, ind.fitness⟩,
     rng2.next.2)
  else (ind, rng1)

/-- The reproduction loop of `createNewGeneration`: `k` more offspring
(select, cross, mutate, validate; an invalid child is replaced by a
fresh random individual). -/
def fillPop (p : Params) (pop : List Individual) (fuel : ℕ) :
    ℕ → List Individual → Rng → Option (List Individual × Rng)
  | 0, acc, rng => some (acc, rng)
  | k + 1, acc, rng =>
    match selectParents p pop rng fuel with
    | none => none
    | some sel =>
      let cr := crossover p sel.1 sel.2.1 sel.2.2 fuel
      match cr.1 with
      | none => none
      | some child =>
        let mu := mutate p child cr.2
        let vres :=
          if validateGenome mu.1.genome then mu
          else createRandomIndividual p.boardSize mu.2
        fillPop p pop fuel k (acc ++ [vres.1]) vres.2

/-- The replacement loop of `checkAndMaintainDiversity`: `k` times,
generate and evaluate a fresh random individual and write it at a random
index in `[1, population.length)`. -/
def diversityReplace (p : Params) : ℕ → List Individual → Rng → List Individual × Rng
  | 0, pop, rng => (pop, rng)
  | k + 1, pop, rng =>
    let cr := createRandomIndividual p.boardSize rng
    let ind : Individual := ⟨cr.1.genome, calculateFitness cr.1.genome⟩
    let idx := randIndex cr.2.next.1 (pop.length - 1) + 1
    diversityReplace p k (pop.set idx ind) cr.2.next.2

/-- The stagnation test of `checkAndMaintainDiversity`: more than 70% of
the population has fitness within `0.001` of the average. -/
def lowDiversity (pop : List Individual) : Prop :=
  let avg : ℚ := (((pop.map (fun ind => ind.fitness)).sum : ℤ) : ℚ) / (pop.length : ℚ)
  ((pop.filter (fun ind => |(ind.fitness : ℚ) - avg| < 1/1000)).length : ℚ) >
    (pop.length : ℚ) * (7/10)

instance (pop : List Individual) : Decidable (lowDiversity pop) := by
  unfold lowDiversity; infer_instance

/-- The function `checkAndMaintainDiversity`. -/
def checkAndMaintainDiversity (p : Params) (pop : List Individual)
    (rng : Rng) : List Individual × Rng :=
  if lowDiversity pop then
    diversityReplace p (ratFloor ((pop.length : ℚ) * (3/10))).toNat pop rng
  else (pop, rng)

/-- The function `createNewGeneration`: stable descending sort, elite carry-over,
reproduction to full size, re-evaluation, then the diversity guard. -/
def createNewGeneration (p : Params) (pop : List Individual) (rng : Rng)
    (fuel : ℕ) : Option (List Individual × Rng) :=
  let sorted := pop.mergeSort (fun a b => decide (b.fitness ≤ a.fitness))
  let eliteCount := max 1 (ratFloor ((p.populationSize : ℚ) * (1/10))).toNat
  let elites := sorted.take eliteCount
  match fillPop p pop fuel (p.populationSize - elites.length) elites rng with
  | none => none
  | some res => some (checkAndMaintainDiversity p (evaluatePopulation res.1) res.2)

/-- Comparison `fitness > bestFitness` where `bestFitness` starts out `-Infinity`
(encoded `none`). -/
def jsGtNegInf (f : ℤ) : Option ℤ → Bool
  | none => true
  | some b => b < f

/-- Comparison `fitness < worstFitness` where `worstFitness` starts out `Infinity`
(encoded `none`). -/
def jsLtPosInf (f : ℤ) : Option ℤ → Bool
  | none => true
  | some w => f < w

/-- The scan loop of `calculateStatistics`: running best fitness, worst
fitness, total fitness and index of the best individual. -/
def statsGo : List Individual → ℕ → Option ℤ → Option ℤ → ℤ → ℕ →
    Option ℤ × Option ℤ × ℤ × ℕ
  | [], _, bestF, worstF, total, bestIdx => (bestF, worstF, total, bestIdx)
  | ind :: rest, i, bestF, worstF, total, bestIdx =>
    statsGo rest (i + 1)
      (if jsGtNegInf ind.fitness bestF then some ind.fitness else bestF)
      (if jsLtPosInf ind.fitness worstF then some ind.fitness else worstF)
      (total + ind.fitness)
      (if jsGtNegInf ind.fitness bestF then i else bestIdx)

/-- The `GenerationStats` record.  `bestFitness`/`worstFitness` are `none` exactly
when the population is empty (the `±Infinity` sentinels survive the
scan). -/
structure GenerationStats where
  generation : ℕ
  bestFitness : Option ℤ
  averageFitness : ℚ
  worstFitness : Option ℤ
  bestGenome : List ℤ
  solved : Bool
deriving DecidableEq, Repr

/-- Comparison `bestFitness > bestSolution.fitness` with `bestFitness` possibly the
`-Infinity` sentinel. -/
def jsGtOpt (o : Option ℤ) (f : ℤ) : Bool :=
  match o with
  | none => false
  | some v => f < v

/-- The function `calculateStatistics`: compute the per-generation report and update
the best-ever individual (replace only when the current best fitness
strictly exceeds the recorded one, or when none is recorded yet). -/
def calculateStatistics (p : Params) (generation : ℕ) (pop : List Individual)
    (bestSolution : Option Individual) : GenerationStats × Option Individual :=
  let scan := statsGo pop 0 none none 0 0
  let bestF := scan.1
  let worstF := scan.2.1
  let avg : ℚ := ((scan.2.2.1 : ℤ) : ℚ) / (pop.length : ℚ)
  let bestIdx := scan.2.2.2
  let solved := bestF == some ((maxPairs p.boardSize : ℕ) : ℤ)
  let newBest :=
    if bestSolution == none || jsGtOpt bestF ((bestSolution.getD junkInd).fitness) then
      some (pop.getD bestIdx junkInd)
    else bestSolution
  (⟨generation, bestF, avg, worstF, (pop.getD bestIdx junkInd).genome, solved⟩, newBest)

/-- The loop of the population initializer: `populationSize` fresh random individuals,
then a full fitness evaluation. -/
def initPopulationGo : ℕ → List Individual → ℕ → Rng → List Individual × Rng
  | _, acc, 0, rng => (acc, rng)
  | n, acc, k + 1, rng =>
    let cr := createRandomIndividual n rng
    initPopulationGo n (acc ++ [cr.1]) k cr.2

/-- The population initializer of the worker. -/
def initPopulation (p : Params) (rng : Rng) : List Individual × Rng :=
  let res := initPopulationGo p.boardSize [] p.populationSize rng
  (evaluatePopulation res.1, res.2)

/-- The engine's module-level mutable state. -/
structure EngState where
  running : Bool
  params : Params
  population : List Individual
  generation : ℕ
  bestSolution : Option Individual
deriving DecidableEq, Repr

/-- The state of the worker module right after it is loaded. -/
def initState : EngState :=
  { running := false
    params := defaultParams
    population := []
    generation := 0
    bestSolution := none }

/-- Events posted back to the main thread. -/
inductive Event where
  | stats (data : GenerationStats)
  | solution (data : Option Individual)
  | error (data : String)
deriving DecidableEq, Repr

/-- One iteration of `runGeneticAlgorithm`: advance a generation, post
stats, and either stop (posting the best-ever solution) or leave the
loop scheduled for another iteration. -/
def tickStep (s : EngState) (rng : Rng) (fuel : ℕ) :
    Option (EngState × List Event × Rng) :=
  if s.running = false then some (s, [], rng)
  else
    let gen := s.generation + 1
    match createNewGeneration s.params s.population rng fuel with
    | none => none
    | some res =>
      let stats := (calculateStatistics s.params gen res.1 s.bestSolution).1
      let newBest := (calculateStatistics s.params gen res.1 s.bestSolution).2
      if stats.solved || decide (s.params.maxGenerations ≤ gen) then
        some ({ s with running := false, generation := gen, population := res.1,
                       bestSolution := newBest },
              [Event.stats stats, Event.solution newBest], res.2)
      else
        some ({ s with generation := gen, population := res.1,
                       bestSolution := newBest },
              [Event.stats stats], res.2)

/-- Inbound control messages (`type` plus optional params payload). -/
structure WMsg where
  type : String
  params : Option Params
deriving DecidableEq, Repr

/-- The `message` event handler of the worker. -/
def handleMessage (s : EngState) (msg : WMsg) (rng : Rng) (fuel : ℕ) :
    Option (EngState × List Event × Rng) :=
  if msg.type = "init" then
    let ps := msg.params.getD s.params
    let ip := initPopulation ps rng
    let st := calculateStatistics ps 0 ip.1 none
    some ({ s with params := ps, generation := 0, population := ip.1,
                   bestSolution := st.2 },
          [Event.stats st.1], ip.2)
  else if msg.type = "start" then
    if s.generation = 0 then
      let ip := initPopulation s.params rng
      tickStep { s with running := true, population := ip.1 } ip.2 fuel
    else
      tickStep { s with running := true } rng fuel
  else if msg.type = "pause" then
    some ({ s with running := false }, [], rng)
  else if msg.type = "reset" then
    let ps := msg.params.getD s.params
    let ip := initPopulation ps rng
    let st := calculateStatistics ps 0 ip.1 none
    some ({ s with running := false, params := ps, generation := 0,
                   population := ip.1, bestSolution := st.2 },
          [Event.stats st.1], ip.2)
  else
    some (s, [Event.error ("Unknown message type: " ++ msg.type)], rng)

/-- One input consumed by the worker's event loop: an inbound message,
or the zero-delay callback scheduled by `runGeneticAlgorithm`. -/
inductive Inp where
  | msg (m : WMsg)
  | tick
deriving DecidableEq, Repr

/-- Process one input. -/
def stepInput (s : EngState) (i : Inp) (rng : Rng) (fuel : ℕ) :
    Option (EngState × List Event × Rng) :=
  match i with
  | .msg m => handleMessage s m rng fuel
  | .tick => tickStep s rng fuel

/-- Run a sequence of inputs (each with its own fuel bound for the PMX
chain loop) against the worker, threading the random stream. -/
def runTrace : EngState → Rng → List (Inp × ℕ) → Option (EngState × Rng)
  | s, rng, [] => some (s, rng)
  | s, rng, (i, fuel) :: rest =>
    match stepInput s i rng fuel with
    | none => none
    | some res => runTrace res.1 res.2.2 rest

/-! ## Basic facts about the random stream -/

theorem Rng.next_nonneg (rng : Rng) : 0 ≤ rng.next.1 := by
  obtain ⟨vals⟩ := rng
  cases vals with
  | nil => simp [Rng.next]
  | cons v vs =>
    simp only [Rng.next]
    split
    · rename_i h; exact h.1
    · exact le_refl 0

theorem Rng.next_lt_one (rng : Rng) : rng.next.1 < 1 := by
  obtain ⟨vals⟩ := rng
  cases vals with
  | nil => simp [Rng.next]
  | cons v vs =>
    simp only [Rng.next]
    split
    · rename_i h; exact h.2
    · norm_num

theorem ratFloor_eq_floor (q : ℚ) : ratFloor q = ⌊q⌋ := by
  rw [ratFloor, Rat.floor_def]

theorem randIndex_lt {r : ℚ} {len : ℕ} (h0 : 0 ≤ r) (h1 : r < 1) (hl : 0 < len) :
    randIndex r len < len := by
  unfold randIndex
  rw [ratFloor_eq_floor]
  have hlen : (0 : ℚ) < (len : ℚ) := by exact_mod_cast hl
  have h2 : (0 : ℚ) ≤ r * (len : ℚ) := mul_nonneg h0 hlen.le
  have h3 : r * (len : ℚ) < (len : ℚ) := by
    calc r * (len : ℚ) < 1 * (len : ℚ) := by exact mul_lt_mul_of_pos_right h1 hlen
    _ = (len : ℚ) := one_mul _
  have h4 : ⌊r * (len : ℚ)⌋ < (len : ℤ) := by
    rw [Int.floor_lt]
    exact_mod_cast h3
  have h5 : (0 : ℤ) ≤ ⌊r * (len : ℚ)⌋ := Int.floor_nonneg.mpr h2
  omega

/-- The index drawn by `Math.floor(Math.random() * len)` is in range. -/
theorem next_randIndex_lt (rng : Rng) {len : ℕ} (hl : 0 < len) :
    randIndex rng.next.1 len < len :=
  randIndex_lt (Rng.next_nonneg rng) (Rng.next_lt_one rng) hl

/-! ## `createRandomIndividual` draws a permutation (C8 and helpers) -/

theorem getD_cons_eraseIdx_perm {a : List ℤ} {idx : ℕ} (h : idx < a.length) :
    (a.getD idx 0 :: a.eraseIdx idx).Perm a := by
  rw [List.getD_eq_getElem?_getD, List.getElem?_eq_getElem h, Option.getD_some]
  rw [List.eraseIdx_eq_take_drop_succ]
  conv_rhs => rw [← List.take_append_drop idx a, List.drop_eq_getElem_cons h]
  exact List.perm_middle.symm

theorem createRandomGo_perm :
    ∀ (k : ℕ) (acc avail : List ℤ) (rng : Rng), avail.length = k →
      ((createRandomGo k acc avail rng).1).Perm (acc ++ avail) := by
  intro k
  induction k with
  | zero =>
    intro acc avail rng hlen
    have : avail = [] := List.length_eq_zero.mp hlen
    subst this
    simp [createRandomGo]
  | succ k ih =>
    intro acc avail rng hlen
    have hpos : 0 < avail.length := by omega
    have hidx : randIndex rng.next.1 avail.length < avail.length :=
      next_randIndex_lt rng hpos
    simp only [createRandomGo]
    have hlen2 : (avail.eraseIdx (randIndex rng.next.1 avail.length)).length = k := by
      rw [List.length_eraseIdx_of_lt hidx]; omega
    refine (ih _ _ _ hlen2).trans ?_
    rw [List.append_assoc, List.singleton_append]
    exact (getD_cons_eraseIdx_perm hidx).append_left acc

/-- Helper form of C8 shared by the engine-level invariant proofs. -/
theorem createRandomIndividual_perm (n : ℕ) (rng : Rng) :
    PermGenome n (createRandomIndividual n rng).1.genome := by
  have h := createRandomGo_perm n [] ((List.range n).map Int.ofNat) rng
    (by simp)
  rw [List.nil_append] at h
  exact h

theorem permGenome_length {n : ℕ} {g : List ℤ} (h : PermGenome n g) :
    g.length = n := by
  have h2 := h.length_eq
  rw [List.length_map, List.length_range] at h2
  exact h2

/-- C8: for every board size `n` and every outcome of the random draws,
`createRandomIndividual` returns a genome of length `n` that is a
permutation of `[0, n)` (each value appears exactly once), obtained by
drawing without replacement from a shrinking candidate list. -/
theorem C8_createRandomIndividual_perm (n : ℕ) (rng : Rng) :
    (createRandomIndividual n rng).1.genome.length = n ∧
    PermGenome n (createRandomIndividual n rng).1.genome :=
  ⟨permGenome_length (createRandomIndividual_perm n rng),
   createRandomIndividual_perm n rng⟩

/-! ## `rouletteWheelSelection` returns a member (C10 and helpers) -/

theorem rouletteWalk_mem :
    ∀ (pop : List Individual) (v : ℚ) (ind : Individual),
      rouletteWalk pop v = some ind → ind ∈ pop := by
  intro pop
  induction pop with
  | nil => intro v ind h; simp [rouletteWalk] at h
  | cons x rest ih =>
    intro v ind h
    simp only [rouletteWalk] at h
    split at h
    · cases h; exact List.mem_cons_self x rest
    · exact List.mem_cons_of_mem x (ih _ _ h)

/-- Helper form of C10 shared by the engine-level invariant proofs. -/
theorem rouletteWheelSelection_mem {pop : List Individual} {rng : Rng}
    {ind : Individual} (h : (rouletteWheelSelection pop rng).1 = some ind) :
    ind ∈ pop := by
  unfold rouletteWheelSelection at h
  simp only at h
  split at h
  · exact List.get?_mem h
  · split at h
    · rename_i ind2 hwalk
      cases h
      exact rouletteWalk_mem _ _ _ hwalk
    · exact List.get?_mem h

/-- C10: for every non-empty population and every outcome of the random
draws, `rouletteWheelSelection` returns an element of the population. -/
theorem C10_roulette_selects_member (pop : List Individual) (rng : Rng)
    (h : pop ≠ []) :
    ∃ ind, (rouletteWheelSelection pop rng).1 = some ind ∧ ind ∈ pop := by
  have hpos : 0 < pop.length := List.length_pos.mpr h
  unfold rouletteWheelSelection
  simp only
  split
  · have hidx : randIndex (rng.next).1 pop.length < pop.length :=
      next_randIndex_lt rng hpos
    exact ⟨pop.get ⟨_, hidx⟩, List.get?_eq_get hidx, List.get_mem _ _ _⟩
  · split
    · rename_i ind hwalk
      exact ⟨ind, rfl, rouletteWalk_mem _ _ _ hwalk⟩
    · have hidx : pop.length - 1 < pop.length := by omega
      exact ⟨pop.get ⟨_, hidx⟩, List.get?_eq_get hidx, List.get_mem _ _ _⟩

/-- Witness for C10 at a concrete population and stream. -/
theorem C10_roulette_selects_member_witness :
    ([(⟨[0], 1⟩ : Individual)] ≠ [] ∧
      ∃ ind, (rouletteWheelSelection [⟨[0], 1⟩] ⟨[1/2]⟩).1 = some ind ∧
        ind ∈ [(⟨[0], 1⟩ : Individual)]) :=
  ⟨by decide, C10_roulette_selects_member [⟨[0], 1⟩] ⟨[1/2]⟩ (by decide)⟩


/-! ## The diversity guard only writes indices in `[1, m)` (C9) -/

theorem get?_set_frame (l : List Individual) (idx : ℕ) (a : Individual) (i : ℕ)
    (h : i = 0 ∨ l.length ≤ i) (hpos : 1 ≤ idx) :
    (l.set idx a).get? i = l.get? i := by
  rcases Nat.lt_or_ge idx l.length with h1 | h1
  · exact List.get?_set_ne _ _ (by omega)
  · rw [List.set_eq_of_length_le h1]

theorem diversityReplace_get? (p : Params) :
    ∀ (k : ℕ) (pop : List Individual) (rng : Rng) (i : ℕ),
      i = 0 ∨ pop.length ≤ i →
      (diversityReplace p k pop rng).1.get? i = pop.get? i ∧
      (diversityReplace p k pop rng).1.length = pop.length := by
  intro k
  induction k with
  | zero => intro pop rng i _; exact ⟨rfl, rfl⟩
  | succ k ih =>
    intro pop rng i hi
    simp only [diversityReplace]
    obtain ⟨h1, h2⟩ := ih
      (pop.set (randIndex ((createRandomIndividual p.boardSize rng).2.next.1) (pop.length - 1) + 1)
        ⟨(createRandomIndividual p.boardSize rng).1.genome,
         calculateFitness (createRandomIndividual p.boardSize rng).1.genome⟩)
      ((createRandomIndividual p.boardSize rng).2.next.2) i
      (by rw [List.length_set]; exact hi)
    rw [List.length_set] at h2
    refine ⟨?_, h2⟩
    rw [h1]
    exact get?_set_frame _ _ _ _ hi (by omega)

/-- C9: for every population of size `m ≥ 2` and every outcome of the
random draws, the diversity guard only ever writes population indices in
`[1, m)`: the individual at index 0 and the length are unchanged, and
anything changes at all only when the within-`0.001`-of-average count
exceeds `0.7 · m`. -/
theorem C9_diversity_frame (p : Params) (pop : List Individual) (rng : Rng)
    (_hm : 2 ≤ pop.length) :
    (checkAndMaintainDiversity p pop rng).1.length = pop.length ∧
    (checkAndMaintainDiversity p pop rng).1.get? 0 = pop.get? 0 ∧
    (∀ i, i = 0 ∨ pop.length ≤ i →
      (checkAndMaintainDiversity p pop rng).1.get? i = pop.get? i) ∧
    ((checkAndMaintainDiversity p pop rng).1 ≠ pop → lowDiversity pop) := by
  unfold checkAndMaintainDiversity
  split
  · rename_i hcond
    exact ⟨(diversityReplace_get? p _ pop rng 0 (Or.inl rfl)).2,
           (diversityReplace_get? p _ pop rng 0 (Or.inl rfl)).1,
           fun i hi => (diversityReplace_get? p _ pop rng i hi).1,
           fun _ => hcond⟩
  · exact ⟨rfl, rfl, fun i _ => rfl, fun hne => absurd rfl hne⟩

/-- Concrete population for the C9 witness. -/
def popW : List Individual := [⟨[0], 0⟩, ⟨[0], 5⟩]

/-- Witness for C9 at a concrete population and stream. -/
theorem C9_diversity_frame_witness :
    2 ≤ popW.length ∧
    ((checkAndMaintainDiversity defaultParams popW ⟨[]⟩).1.length = popW.length ∧
     (checkAndMaintainDiversity defaultParams popW ⟨[]⟩).1.get? 0 = popW.get? 0 ∧
     (∀ i, i = 0 ∨ popW.length ≤ i →
       (checkAndMaintainDiversity defaultParams popW ⟨[]⟩).1.get? i = popW.get? i) ∧
     ((checkAndMaintainDiversity defaultParams popW ⟨[]⟩).1 ≠ popW →
       lowDiversity popW)) :=
  ⟨by decide, C9_diversity_frame defaultParams popW ⟨[]⟩ (by decide)⟩

/-! ## Unknown control messages (C4) -/

/-- C4 (amended): for every engine state and every inbound message whose
type is not `init`/`start`/`pause`/`reset`, processing the message emits
exactly one `error` event and leaves the whole engine state — the
running flag included — unchanged, and draws no randomness. -/
theorem C4_unknown_message_frame (s : EngState) (msg : WMsg) (rng : Rng) (fuel : ℕ)
    (h : msg.type ≠ "init" ∧ msg.type ≠ "start" ∧ msg.type ≠ "pause" ∧
         msg.type ≠ "reset") :
    handleMessage s msg rng fuel =
      some (s, [Event.error ("Unknown message type: " ++ msg.type)], rng) := by
  unfold handleMessage
  rw [if_neg h.1, if_neg h.2.1, if_neg h.2.2.1, if_neg h.2.2.2]

/-- Witness for C4's amended frame theorem at a concrete state and
message (the `update` type named in `WorkerMessage` but absent from the
switch). -/
theorem C4_unknown_message_frame_witness :
    handleMessage initState ⟨"update", none⟩ ⟨[]⟩ 0 =
      some (initState, [Event.error ("Unknown message type: " ++ "update")], ⟨[]⟩) :=
  C4_unknown_message_frame initState ⟨"update", none⟩ ⟨[]⟩ 0
    ⟨by decide, by decide, by decide, by decide⟩

/-- C4 counterexample: processing an unknown message while the engine is
running leaves the running flag `true`; the handler's default case never
sets it to `false` as the claim asserts. -/
theorem C4_running_not_cleared :
    ((handleMessage { initState with running := true } ⟨"update", none⟩ ⟨[]⟩ 0).map
      (fun r => r.1.running)) = some true := by
  decide

/-! ## Best-ever tracking is monotone (C6) -/

theorem statsGo_some :
    ∀ (rest : List Individual) (i : ℕ) (bF wF : Option ℤ) (t : ℤ) (bI : ℕ),
      rest ≠ [] ∨ bF ≠ none → (statsGo rest i bF wF t bI).1 ≠ none := by
  intro rest
  induction rest with
  | nil =>
    intro i bF wF t bI h
    rcases h with h | h
    · exact absurd rfl h
    · simpa [statsGo] using h
  | cons ind rest ih =>
    intro i bF wF t bI _
    simp only [statsGo]
    by_cases hup : jsGtNegInf ind.fitness bF = true
    · rw [if_pos hup]
      exact ih _ _ _ _ _ (Or.inr (by simp))
    · have hbF : bF ≠ none := by
        cases bF with
        | none => simp [jsGtNegInf] at hup
        | some v => simp
      rw [if_neg hup]
      exact ih _ _ _ _ _ (Or.inr hbF)

theorem statsGo_best_spec :
    ∀ (rest : List Individual) (i : ℕ) (bF wF : Option ℤ) (t : ℤ) (bI : ℕ),
      ((statsGo rest i bF wF t bI).1 = bF ∧ (statsGo rest i bF wF t bI).2.2.2 = bI) ∨
      ∃ k, ∃ hk : k < rest.length,
        (statsGo rest i bF wF t bI).2.2.2 = i + k ∧
        (statsGo rest i bF wF t bI).1 = some (rest.get ⟨k, hk⟩).fitness := by
  intro rest
  induction rest with
  | nil => intro i bF wF t bI; left; exact ⟨rfl, rfl⟩
  | cons ind rest ih =>
    intro i bF wF t bI
    simp only [statsGo]
    by_cases hup : jsGtNegInf ind.fitness bF = true
    · rw [if_pos hup, if_pos hup]
      rcases ih (i + 1) (some ind.fitness)
          (if jsLtPosInf ind.fitness wF then some ind.fitness else wF)
          (t + ind.fitness) i with ⟨h1, h2⟩ | ⟨k, hk, h1, h2⟩
      · right
        exact ⟨0, by simp, by simpa using h2, by simpa using h1⟩
      · right
        refine ⟨k + 1, by simpa using Nat.succ_lt_succ hk, ?_, ?_⟩
        · rw [h1]; omega
        · rw [h2]; rfl
    · rw [if_neg hup, if_neg hup]
      rcases ih (i + 1) bF
          (if jsLtPosInf ind.fitness wF then some ind.fitness else wF)
          (t + ind.fitness) bI with ⟨h1, h2⟩ | ⟨k, hk, h1, h2⟩
      · left; exact ⟨h1, h2⟩
      · right
        refine ⟨k + 1, by simpa using Nat.succ_lt_succ hk, ?_, ?_⟩
        · rw [h1]; omega
        · rw [h2]; rfl

/-- For a non-empty population, the scan reports the fitness of the
individual it points at with `bestIdx`. -/
theorem statsGo_points_at_best (pop : List Individual) (h : pop ≠ []) :
    ∃ k, ∃ hk : k < pop.length,
      (statsGo pop 0 none none 0 0).2.2.2 = k ∧
      (statsGo pop 0 none none 0 0).1 = some (pop.get ⟨k, hk⟩).fitness := by
  rcases statsGo_best_spec pop 0 none none 0 0 with ⟨h1, _⟩ | ⟨k, hk, h1, h2⟩
  · exact absurd h1 (statsGo_some pop 0 none none 0 0 (Or.inl h))
  · exact ⟨k, hk, by simpa using h1, h2⟩

theorem getD_eq_get {l : List Individual} {k : ℕ} (hk : k < l.length) :
    l.getD k junkInd = l.get ⟨k, hk⟩ := by
  rw [List.getD_eq_getElem?_getD, List.getElem?_eq_getElem hk, Option.getD_some]
  rfl

/-- C6: `calculateStatistics` replaces the recorded best-ever individual
only when the current generation's best fitness strictly exceeds the
recorded best-ever fitness (or none is recorded yet), so the best-ever
fitness never decreases across successive statistics computations within
one run. -/
theorem C6_bestEver_monotone (p : Params) (gen : ℕ) (pop : List Individual)
    (bestSol : Option Individual) (h : pop ≠ []) :
    (∀ b, bestSol = some b →
      ∃ b2, (calculateStatistics p gen pop bestSol).2 = some b2 ∧
        b.fitness ≤ b2.fitness) ∧
    ((calculateStatistics p gen pop bestSol).2 ≠ bestSol →
      bestSol = none ∨ ∃ b, bestSol = some b ∧
        jsGtOpt (calculateStatistics p gen pop bestSol).1.bestFitness b.fitness = true) := by
  obtain ⟨k, hk, hidx, hbf⟩ := statsGo_points_at_best pop h
  have hgetD : pop.getD k junkInd = pop.get ⟨k, hk⟩ := getD_eq_get hk
  unfold calculateStatistics
  simp only [hidx, hbf, hgetD]
  cases bestSol with
  | none =>
    exact ⟨(fun b hb => nomatch hb), fun _ => Or.inl rfl⟩
  | some b =>
    simp only [jsGtOpt]
    constructor
    · intro b0 hb0
      have hb2 : b = b0 := by injection hb0
      subst hb2
      by_cases hlt : b.fitness < (pop.get ⟨k, hk⟩).fitness
      · refine ⟨pop.get ⟨k, hk⟩, ?_, le_of_lt hlt⟩
        simp [hlt]
        intro hle
        exact absurd hlt (not_lt.mpr hle)
      · refine ⟨b, ?_, le_refl _⟩
        simp [hlt]
        intro hlt2
        exact absurd hlt2 hlt
    · intro hne
      right
      refine ⟨b, rfl, ?_⟩
      by_cases hlt : b.fitness < (pop.get ⟨k, hk⟩).fitness
      · simpa using hlt
      · exfalso
        apply hne
        simp [hlt]
        intro hlt2
        exact absurd hlt2 hlt

/-- Witness for C6 at a concrete population and recorded best. -/
theorem C6_bestEver_monotone_witness :
    ([(⟨[0], 5⟩ : Individual)] ≠ []) ∧
    ((∀ b, (some (⟨[1], 3⟩ : Individual)) = some b →
      ∃ b2, (calculateStatistics defaultParams 1 [⟨[0], 5⟩] (some ⟨[1], 3⟩)).2 = some b2 ∧
        b.fitness ≤ b2.fitness) ∧
    ((calculateStatistics defaultParams 1 [⟨[0], 5⟩] (some ⟨[1], 3⟩)).2 ≠ some ⟨[1], 3⟩ →
      (some (⟨[1], 3⟩ : Individual)) = none ∨ ∃ b, (some (⟨[1], 3⟩ : Individual)) = some b ∧
        jsGtOpt (calculateStatistics defaultParams 1 [⟨[0], 5⟩] (some ⟨[1], 3⟩)).1.bestFitness
          b.fitness = true)) :=
  ⟨by decide, C6_bestEver_monotone defaultParams 1 [⟨[0], 5⟩] (some ⟨[1], 3⟩) (by decide)⟩

/-! ## The fitness formula (C7) -/

/-- The attack relation as the spec states it: same column, or
`|i - j| = |genome[i] - genome[j]|`. -/
def attackProp (g : List ℤ) (i j : ℕ) : Prop :=
  g.getD i 0 = g.getD j 0 ∨ |(i : ℤ) - (j : ℤ)| = |g.getD i 0 - g.getD j 0|

instance (g : List ℤ) (i j : ℕ) : Decidable (attackProp g i j) := by
  unfold attackProp; infer_instance

/-- The set of attacking pairs `i < j` — the claim's counting measure. -/
def conflictPairs (g : List ℤ) : Finset (ℕ × ℕ) :=
  (Finset.range g.length ×ˢ Finset.range g.length).filter
    (fun q => q.1 < q.2 ∧ attackProp g q.1 q.2)

theorem attackB_iff (g : List ℤ) (i j : ℕ) :
    attackB g i j = true ↔ attackProp g i j := by
  unfold attackB attackProp
  rw [Bool.or_eq_true, beq_iff_eq, beq_iff_eq]
  constructor
  · rintro (h | h)
    · exact Or.inl h
    · right
      rw [Int.abs_eq_natAbs, Int.abs_eq_natAbs, h]
  · rintro (h | h)
    · exact Or.inl h
    · right
      rw [Int.abs_eq_natAbs, Int.abs_eq_natAbs] at h
      exact_mod_cast h

theorem sum_map_range (f : ℕ → ℕ) (n : ℕ) :
    ((List.range n).map f).sum = ∑ i ∈ Finset.range n, f i := by
  induction n with
  | zero => simp
  | succ n ih =>
    rw [List.range_succ, List.map_append, List.sum_append, Finset.sum_range_succ, ih]
    simp

theorem length_filter_range (p : ℕ → Bool) (n : ℕ) :
    ((List.range n).filter p).length =
      ((Finset.range n).filter (fun j => p j = true)).card := by
  induction n with
  | zero => simp
  | succ n ih =>
    rw [List.range_succ, List.filter_append, List.length_append, Finset.range_succ,
        Finset.filter_insert]
    cases hp : p n with
    | false => simp [hp, ih]
    | true =>
      rw [if_pos rfl, Finset.card_insert_of_not_mem
        (fun hmem => Finset.not_mem_range_self (Finset.mem_filter.mp hmem).1)]
      simp [hp, ih]

/-- The fiber of the pair set over a fixed first coordinate `i`. -/
theorem pairs_fiber_eq (n i : ℕ) (hi : i < n) (A : ℕ → ℕ → Prop) [DecidableRel A] :
    ((Finset.range n ×ˢ Finset.range n).filter
        (fun q => q.1 < q.2 ∧ A q.1 q.2)).filter (fun q => q.1 = i) =
      ((Finset.range n).filter (fun j => i < j ∧ A i j)).map
        ⟨fun j => (i, j), fun a b hab => by injection hab⟩ := by
  ext q
  obtain ⟨a, b⟩ := q
  simp only [Finset.mem_filter, Finset.mem_product, Finset.mem_range, Finset.mem_map,
    Function.Embedding.coeFn_mk]
  constructor
  · rintro ⟨⟨⟨ha, hb⟩, hab, hatk⟩, rfl⟩
    exact ⟨b, ⟨hb, hab, hatk⟩, rfl⟩
  · rintro ⟨j, ⟨hj, hij, hatk⟩, hq⟩
    injection hq with h1 h2
    subst h1
    subst h2
    exact ⟨⟨⟨hi, hj⟩, hij, hatk⟩, rfl⟩

theorem pairs_card_eq_sum (n : ℕ) (A : ℕ → ℕ → Prop) [DecidableRel A] :
    ((Finset.range n ×ˢ Finset.range n).filter
        (fun q => q.1 < q.2 ∧ A q.1 q.2)).card =
      ∑ i ∈ Finset.range n, ((Finset.range n).filter (fun j => i < j ∧ A i j)).card := by
  have Hfib : ∀ q ∈ (Finset.range n ×ˢ Finset.range n).filter
      (fun q => q.1 < q.2 ∧ A q.1 q.2), Prod.fst q ∈ Finset.range n := by
    intro q hq
    exact (Finset.mem_product.mp (Finset.mem_filter.mp hq).1).1
  rw [Finset.card_eq_sum_card_fiberwise Hfib]
  refine Finset.sum_congr rfl ?_
  intro i hi
  rw [pairs_fiber_eq n i (Finset.mem_range.mp hi) A, Finset.card_map]

theorem conflictsCount_eq_card (g : List ℤ) :
    conflictsCount g = (conflictPairs g).card := by
  unfold conflictsCount conflictPairs
  rw [sum_map_range, pairs_card_eq_sum g.length (attackProp g)]
  refine Finset.sum_congr rfl ?_
  intro i _
  rw [length_filter_range]
  congr 1
  apply Finset.filter_congr
  intro j _
  simp [attackB_iff]

theorem card_range_filter_lt (n i : ℕ) :
    ((Finset.range n).filter (fun j => i < j ∧ True)).card = n - (i + 1) := by
  have h : (Finset.range n).filter (fun j => i < j ∧ True) = Finset.Ico (i + 1) n := by
    ext j
    simp only [Finset.mem_filter, Finset.mem_range, Finset.mem_Ico, and_true]
    omega
  rw [h, Nat.card_Ico]

theorem sum_range_pred_sub (n : ℕ) :
    ∑ i ∈ Finset.range n, (n - (i + 1)) = n * (n - 1) / 2 := by
  calc ∑ i ∈ Finset.range n, (n - (i + 1))
      = ∑ i ∈ Finset.range n, (n - 1 - i) :=
        Finset.sum_congr rfl (fun i _ => by omega)
    _ = ∑ i ∈ Finset.range n, i := Finset.sum_range_reflect (fun j => j) n
    _ = n * (n - 1) / 2 := Finset.sum_range_id n

theorem card_conflictPairs_le (g : List ℤ) :
    (conflictPairs g).card ≤ maxPairs g.length := by
  unfold conflictPairs maxPairs
  have hsub : (Finset.range g.length ×ˢ Finset.range g.length).filter
      (fun q => q.1 < q.2 ∧ attackProp g q.1 q.2) ⊆
      (Finset.range g.length ×ˢ Finset.range g.length).filter
      (fun q => q.1 < q.2 ∧ True) :=
    Finset.monotone_filter_right _ (fun q hq => ⟨hq.1, trivial⟩)
  refine le_trans (Finset.card_le_card hsub) ?_
  rw [pairs_card_eq_sum g.length (fun _ _ => True),
      Finset.sum_congr rfl (fun i _ => card_range_filter_lt g.length i),
      sum_range_pred_sub]

/-- C7: for every genome (permutation or not), `calculateFitness` equals
`maxPairs` minus the number of pairs `i < j` that attack each other;
hence fitness plus conflicts is `n·(n−1)/2` and fitness lies in
`[0, maxPairs]`.  The function is pure by construction (it is a Lean
function of the genome alone). -/
theorem C7_fitness_formula (g : List ℤ) :
    calculateFitness g = (maxPairs g.length : ℤ) - ((conflictPairs g).card : ℤ) ∧
    calculateFitness g + ((conflictPairs g).card : ℤ) =
      ((g.length * (g.length - 1) / 2 : ℕ) : ℤ) ∧
    0 ≤ calculateFitness g ∧ calculateFitness g ≤ (maxPairs g.length : ℤ) := by
  have hcard := conflictsCount_eq_card g
  have hle := card_conflictPairs_le g
  unfold calculateFitness
  rw [hcard]
  refine ⟨rfl, ?_, ?_, ?_⟩
  · have : (maxPairs g.length : ℤ) = ((g.length * (g.length - 1) / 2 : ℕ) : ℤ) := by
      unfold maxPairs; rfl
    omega
  · have : ((conflictPairs g).card : ℤ) ≤ (maxPairs g.length : ℤ) := by exact_mod_cast hle
    omega
  · have : (0 : ℤ) ≤ ((conflictPairs g).card : ℤ) := by positivity
    omega

/-! ## The PMX mapping chain can stall (C1) -/

/-- If one step of the mapping chain leaves the value unchanged and the
value is in the child, the `while` loop never exits. -/
theorem chainResolve_stuck (mapping : List (ℤ × ℤ)) (child : List ℤ) (v : ℤ)
    (hmem : child.contains v = true) (hstep : mapStep mapping v = v) :
    ∀ fuel, chainResolve mapping child fuel v = none := by
  intro fuel
  induction fuel with
  | zero =>
    rw [chainResolve, if_pos hmem]
  | succ fuel ih =>
    rw [chainResolve, if_pos hmem, hstep]
    exact ih

/-- Concrete parameters for the diverging crossover run: a 4×4 board,
population 2, roulette selection. -/
def pC1 : Params :=
  { boardSize := 4
    populationSize := 2
    selectionStrategy := .rouletteWheel
    tournamentSize := 5
    crossoverRate := 4/5
    mutationRate := 1/5
    maxGenerations := 10 }

/-- First parent `[0, 1, 2, 3]` (fitness 0: every pair is diagonal). -/
def parentA : Individual := ⟨[0, 1, 2, 3], 0⟩

/-- Second parent `[1, 0, 3, 2]` (fitness 2). -/
def parentB : Individual := ⟨[1, 0, 3, 2], 2⟩

/-- Draws: crossover happens (0 ≤ 0.8), `point1 = ⌊1/3·3⌋ = 1`,
`point2 = ⌊0·2⌋ + 2 = 2`. -/
def rngC1 : Rng := ⟨[0, 1/3, 0]⟩

/-- Shared helper: the concrete crossover call stalls in the mapping
chain, for every fuel bound. -/
theorem crossover_stalls (fuel : ℕ) :
    (crossover pC1 parentA parentB rngC1 fuel).1 = none := by
  have hstuck := chainResolve_stuck [(2, 3), (1, 0)] [-1, 1, 2, -1] 1
    (by decide) (by decide)
  have hfill : pmxFill [(2, 3), (1, 0)] [1, 0, 3, 2] 1 2 fuel [0, 1, 2, 3]
      [-1, 1, 2, -1] = none := by
    rw [pmxFill, if_neg (by omega)]
    have hgetD : ([1, 0, 3, 2] : List ℤ).getD 0 0 = 1 := rfl
    rw [hgetD, hstuck fuel]
  have hcr : crossover pC1 parentA parentB rngC1 fuel =
      (match pmxFill [(2, 3), (1, 0)] [1, 0, 3, 2] 1 2 fuel [0, 1, 2, 3]
          [-1, 1, 2, -1] with
        | none => ((none : Option Individual), (⟨[]⟩ : Rng))
        | some g => (some ⟨g, 0⟩, (⟨[]⟩ : Rng))) := by with_unfolding_all rfl
  rw [hcr, hfill]

/-- C1 (code bug): with permutation parents `[0,1,2,3]` and `[1,0,3,2]`
on a 4×4 board, crossover performed and cut points 1..2, filling
position 0 resolves `parent2[0] = 1`, which the segment maps to `0`; the
JavaScript fallback `mapping.get(v) || v` treats the mapped value `0` as
falsy and keeps `1`, which is already in the child, so the `while` loop
never terminates — `crossover` diverges (`none` for every fuel bound)
instead of returning a permutation. -/
theorem C1_crossover_diverges (fuel : ℕ) :
    (crossover pC1 parentA parentB rngC1 fuel).1 = none :=
  crossover_stalls fuel

/-! ## The population invariant (C2 and helpers) -/

theorem validateGo_bounds (n : ℕ) :
    ∀ (rest seen : List ℤ), validateGo n rest seen = true →
      rest.Nodup ∧ ∀ v ∈ rest, 0 ≤ v ∧ v < (n : ℤ) ∧ v ∉ seen := by
  intro rest
  induction rest with
  | nil =>
    intro seen _
    exact ⟨List.nodup_nil, fun v hv => absurd hv (List.not_mem_nil v)⟩
  | cons v rest ih =>
    intro seen h
    rw [validateGo] at h
    split at h
    · exact absurd h (by simp)
    · rename_i hcond
      have hcond2 : (0 ≤ v ∧ v < (n : ℤ)) ∧ v ∉ seen := by
        simpa [not_or] using hcond
      obtain ⟨⟨hv0, hvn⟩, hvseen⟩ := hcond2
      obtain ⟨hnd, hrest⟩ := ih (v :: seen) h
      refine ⟨List.nodup_cons.mpr ⟨?_, hnd⟩, ?_⟩
      · intro hvmem
        exact (hrest v hvmem).2.2 (List.mem_cons_self v seen)
      · intro u hu
        rcases List.mem_cons.mp hu with rfl | hu
        · exact ⟨hv0, hvn, hvseen⟩
        · obtain ⟨h1, h2, h3⟩ := hrest u hu
          exact ⟨h1, h2, fun hus => h3 (List.mem_cons_of_mem v hus)⟩

/-- A genome accepted by `validateGenome` is a permutation of
`[0, genome.length)`. -/
theorem validateGenome_perm {g : List ℤ} (h : validateGenome g = true) :
    PermGenome g.length g := by
  obtain ⟨hnd, hb⟩ := validateGo_bounds g.length g [] h
  have hsub : g ⊆ (List.range g.length).map Int.ofNat := by
    intro v hv
    obtain ⟨h0, h1, _⟩ := hb v hv
    refine List.mem_map.mpr ⟨v.toNat, List.mem_range.mpr (by omega), ?_⟩
    show ((v.toNat : ℕ) : ℤ) = v
    exact_mod_cast Int.toNat_of_nonneg h0
  have hsp := List.subperm_of_subset hnd hsub
  exact hsp.perm_of_length_le (by rw [List.length_map, List.length_range])

theorem foldlBest_mem :
    ∀ (l : List Individual) (acc : Option Individual) (b : Individual),
      l.foldl (fun best c =>
        match best with
        | none => some c
        | some bb => if bb.fitness < c.fitness then some c else some bb) acc = some b →
      b ∈ l ∨ acc = some b := by
  intro l
  induction l with
  | nil => intro acc b h; exact Or.inr h
  | cons c l ih =>
    intro acc b h
    rw [List.foldl_cons] at h
    rcases ih _ b h with hmem | hacc
    · exact Or.inl (List.mem_cons_of_mem c hmem)
    · cases acc with
      | none =>
        simp only at hacc
        injection hacc with hacc
        exact Or.inl (hacc ▸ List.mem_cons_self c l)
      | some a =>
        simp only at hacc
        split at hacc
        · injection hacc with hacc
          exact Or.inl (hacc ▸ List.mem_cons_self c l)
        · exact Or.inr hacc

theorem bestOf_mem {contestants : List Individual} {b : Individual}
    (h : bestOf contestants = some b) : b ∈ contestants := by
  rcases foldlBest_mem contestants none b h with hmem | hacc
  · exact hmem
  · cases hacc

theorem drawDistinct_lt {len k : ℕ} (hlen : 0 < len) :
    ∀ (fuel : ℕ) (acc : List ℕ) (rng : Rng) (res : List ℕ × Rng),
      (∀ i ∈ acc, i < len) → drawDistinct len k fuel acc rng = some res →
      ∀ i ∈ res.1, i < len := by
  intro fuel
  induction fuel with
  | zero =>
    intro acc rng res hacc h
    rw [drawDistinct] at h
    split at h
    · injection h with h
      subst h
      exact hacc
    · cases h
  | succ fuel ih =>
    intro acc rng res hacc h
    rw [drawDistinct] at h
    split at h
    · injection h with h
      subst h
      exact hacc
    · simp only [] at h
      split at h
      · exact ih acc rng.next.2 res hacc h
      · refine ih _ rng.next.2 res ?_ h
        intro i hi
        rcases List.mem_append.mp hi with hi | hi
        · exact hacc i hi
        · rw [List.mem_singleton.mp hi]
          exact next_randIndex_lt rng hlen

theorem tournamentSelection_mem {p : Params} {pop : List Individual} {rng : Rng}
    {fuel : ℕ} {res : Individual × Rng}
    (h : tournamentSelection p pop rng fuel = some res) : res.1 ∈ pop := by
  simp only [tournamentSelection] at h
  split at h
  · cases h
  · rename_i dres hdraw
    split at h
    · cases h
    · rename_i best hbest
      injection h with h
      subst h
      have hmem := bestOf_mem hbest
      obtain ⟨i, hi, hgd⟩ := List.mem_map.mp hmem
      cases pop with
      | nil =>
        have hdd : ∀ (len fuel : ℕ) (rng : Rng),
            drawDistinct len 0 fuel [] rng = some ([], rng) := by
          intro len fuel rng
          cases fuel <;> rw [drawDistinct] <;> rw [if_pos (by simp)]
        simp only [List.length_nil, Nat.min_zero, min_zero] at hdraw
        rw [hdd] at hdraw
        injection hdraw with hdraw
        subst hdraw
        simp at hi
      | cons a as =>
        have hlen : 0 < (a :: as).length := by simp
        have hlt := drawDistinct_lt hlen fuel [] rng dres (by intro i hi; cases hi) hdraw i hi
        rw [getD_eq_get hlt] at hgd
        rw [← hgd]
        exact List.get_mem _ _ _

theorem selectParents_mem {p : Params} {pop : List Individual} {rng : Rng} {fuel : ℕ}
    {res : Individual × Individual × Rng} (h : selectParents p pop rng fuel = some res) :
    res.1 ∈ pop ∧ res.2.1 ∈ pop := by
  simp only [selectParents] at h
  split at h
  · split at h
    · cases h
    · rename_i p1 hp1
      split at h
      · cases h
      · rename_i p2 hp2
        injection h with h
        subst h
        exact ⟨rouletteWheelSelection_mem hp1, rouletteWheelSelection_mem hp2⟩
  · split at h
    · cases h
    · rename_i r1 hr1
      split at h
      · cases h
      · rename_i r2 hr2
        injection h with h
        subst h
        exact ⟨tournamentSelection_mem hr1, tournamentSelection_mem hr2⟩

theorem pmxFill_length (mapping : List (ℤ × ℤ)) (p2g : List ℤ) (a b fuel : ℕ) :
    ∀ (positions : List ℕ) (child res : List ℤ),
      pmxFill mapping p2g a b fuel positions child = some res →
      res.length = child.length := by
  intro positions
  induction positions with
  | nil =>
    intro child res h
    injection h with h
    rw [h]
  | cons i rest ih =>
    intro child res h
    rw [pmxFill] at h
    split at h
    · exact ih child res h
    · split at h
      · cases h
      · have := ih _ res h
        rw [this, List.length_set]

theorem crossover_length {p : Params} {p1 p2 : Individual} {rng : Rng} {fuel : ℕ}
    {c : Individual} (hp1 : p1.genome.length = p.boardSize)
    (h : (crossover p p1 p2 rng fuel).1 = some c) :
    c.genome.length = p.boardSize := by
  simp only [crossover] at h
  split at h
  · injection h with h
    rw [← h]
    exact hp1
  · split at h
    · cases h
    · rename_i g hfill
      injection h with h
      rw [← h]
      have := pmxFill_length _ _ _ _ _ _ _ _ hfill
      simp only [this, List.length_map, List.length_range]

theorem mutate_length (p : Params) (ind : Individual) (rng : Rng) :
    ((mutate p ind rng).1).genome.length = ind.genome.length := by
  unfold mutate
  split
  · simp [List.length_set]
  · rfl

theorem fillPop_inv {p : Params} {pop : List Individual} {fuel : ℕ}
    (hpop : ∀ ind ∈ pop, PermGenome p.boardSize ind.genome) :
    ∀ (k : ℕ) (acc : List Individual) (rng : Rng) (res : List Individual × Rng),
      (∀ ind ∈ acc, PermGenome p.boardSize ind.genome) →
      fillPop p pop fuel k acc rng = some res →
      res.1.length = acc.length + k ∧
      ∀ ind ∈ res.1, PermGenome p.boardSize ind.genome := by
  intro k
  induction k with
  | zero =>
    intro acc rng res hacc h
    injection h with h
    rw [← h]
    exact ⟨rfl, hacc⟩
  | succ k ih =>
    intro acc rng res hacc h
    rw [fillPop] at h
    split at h
    · cases h
    · rename_i sel hsel
      simp only [] at h
      split at h
      · cases h
      · rename_i child hchild
        obtain ⟨hmem1, _⟩ := selectParents_mem hsel
        have hp1len : sel.1.genome.length = p.boardSize :=
          permGenome_length (hpop sel.1 hmem1)
        have hclen : child.genome.length = p.boardSize :=
          crossover_length hp1len hchild
        have hvperm : PermGenome p.boardSize
            (if validateGenome (mutate p child
                (crossover p sel.1 sel.2.1 sel.2.2 fuel).2).1.genome then
              mutate p child (crossover p sel.1 sel.2.1 sel.2.2 fuel).2
            else createRandomIndividual p.boardSize
                (mutate p child (crossover p sel.1 sel.2.1 sel.2.2 fuel).2).2).1.genome := by
          split
          · rename_i hval
            have hperm := validateGenome_perm hval
            have hmlen := mutate_length p child
              (crossover p sel.1 sel.2.1 sel.2.2 fuel).2
            rw [hmlen, hclen] at hperm
            exact hperm
          · exact createRandomIndividual_perm p.boardSize _
        have hacc2 : ∀ ind ∈ acc ++ [(if validateGenome (mutate p child
            (crossover p sel.1 sel.2.1 sel.2.2 fuel).2).1.genome then
              mutate p child (crossover p sel.1 sel.2.1 sel.2.2 fuel).2
            else createRandomIndividual p.boardSize
              (mutate p child (crossover p sel.1 sel.2.1 sel.2.2 fuel).2).2).1],
            PermGenome p.boardSize ind.genome := by
          intro ind hind
          rcases List.mem_append.mp hind with hind | hind
          · exact hacc ind hind
          · rw [List.mem_singleton.mp hind]
            exact hvperm
        obtain ⟨hlen2, hall⟩ := ih _ _ res hacc2 h
        refine ⟨?_, hall⟩
        rw [hlen2, List.length_append, List.length_singleton]
        omega

theorem initPopulationGo_inv (n : ℕ) :
    ∀ (k : ℕ) (acc : List Individual) (rng : Rng),
      (∀ ind ∈ acc, PermGenome n ind.genome) →
      (initPopulationGo n acc k rng).1.length = acc.length + k ∧
      ∀ ind ∈ (initPopulationGo n acc k rng).1, PermGenome n ind.genome := by
  intro k
  induction k with
  | zero =>
    intro acc rng hacc
    exact ⟨rfl, hacc⟩
  | succ k ih =>
    intro acc rng hacc
    rw [initPopulationGo]
    have hacc2 : ∀ ind ∈ acc ++ [(createRandomIndividual n rng).1],
        PermGenome n ind.genome := by
      intro ind hind
      rcases List.mem_append.mp hind with hind | hind
      · exact hacc ind hind
      · rw [List.mem_singleton.mp hind]
        exact createRandomIndividual_perm n rng
    obtain ⟨h1, h2⟩ := ih (acc ++ [(createRandomIndividual n rng).1])
      (createRandomIndividual n rng).2 hacc2
    refine ⟨?_, h2⟩
    rw [h1, List.length_append, List.length_singleton]
    omega

theorem evaluatePopulation_inv {n : ℕ} {pop : List Individual}
    (h : ∀ ind ∈ pop, PermGenome n ind.genome) :
    (evaluatePopulation pop).length = pop.length ∧
    ∀ ind ∈ evaluatePopulation pop, PermGenome n ind.genome := by
  constructor
  · exact List.length_map pop _
  · intro ind hind
    obtain ⟨ind0, hind0, hmap⟩ := List.mem_map.mp hind
    rw [← hmap]
    exact h ind0 hind0

theorem diversityReplace_inv (p : Params) :
    ∀ (k : ℕ) (pop : List Individual) (rng : Rng),
      (∀ ind ∈ pop, PermGenome p.boardSize ind.genome) →
      ∀ ind ∈ (diversityReplace p k pop rng).1, PermGenome p.boardSize ind.genome := by
  intro k
  induction k with
  | zero =>
    intro pop rng hpop
    exact hpop
  | succ k ih =>
    intro pop rng hpop
    rw [diversityReplace]
    apply ih
    intro ind hind
    rcases List.mem_or_eq_of_mem_set hind with hind | hind
    · exact hpop ind hind
    · rw [hind]
      exact createRandomIndividual_perm p.boardSize rng

theorem checkAndMaintainDiversity_inv {p : Params} {pop : List Individual} {rng : Rng}
    (hpop : ∀ ind ∈ pop, PermGenome p.boardSize ind.genome) :
    (checkAndMaintainDiversity p pop rng).1.length = pop.length ∧
    ∀ ind ∈ (checkAndMaintainDiversity p pop rng).1,
      PermGenome p.boardSize ind.genome := by
  constructor
  · unfold checkAndMaintainDiversity
    split
    · exact (diversityReplace_get? p _ pop rng 0 (Or.inl rfl)).2
    · rfl
  · unfold checkAndMaintainDiversity
    split
    · exact diversityReplace_inv p _ pop rng hpop
    · exact hpop

theorem createNewGeneration_inv {p : Params} {pop : List Individual} {rng : Rng}
    {fuel : ℕ} {res : List Individual × Rng}
    (hlen : pop.length = p.populationSize ∨ pop = [])
    (hpop : ∀ ind ∈ pop, PermGenome p.boardSize ind.genome)
    (h : createNewGeneration p pop rng fuel = some res) :
    res.1.length = p.populationSize ∧
    ∀ ind ∈ res.1, PermGenome p.boardSize ind.genome := by
  simp only [createNewGeneration] at h
  split at h
  · cases h
  · rename_i fres hfill
    injection h with h
    subst h
    have hsp := List.mergeSort_perm pop (fun a b => decide (b.fitness ≤ a.fitness))
    have helim : ∀ ind ∈ (pop.mergeSort (fun a b => decide (b.fitness ≤ a.fitness))).take
        (max 1 (ratFloor ((p.populationSize : ℚ) * (1/10))).toNat),
        PermGenome p.boardSize ind.genome := by
      intro ind hind
      exact hpop ind (hsp.mem_iff.mp (List.mem_of_mem_take hind))
    obtain ⟨hflen, hfall⟩ := fillPop_inv hpop _ _ _ fres helim hfill
    have htake : ((pop.mergeSort (fun a b => decide (b.fitness ≤ a.fitness))).take
        (max 1 (ratFloor ((p.populationSize : ℚ) * (1/10))).toNat)).length ≤
        p.populationSize := by
      rw [List.length_take, hsp.length_eq]
      rcases hlen with hlen | hlen
      · rw [hlen]
        exact min_le_right _ _
      · rw [hlen]
        simp
    obtain ⟨hev1, hev2⟩ := @evaluatePopulation_inv p.boardSize fres.1 hfall
    obtain ⟨hcd1, hcd2⟩ := @checkAndMaintainDiversity_inv p (evaluatePopulation fres.1)
      fres.2 hev2
    refine ⟨?_, hcd2⟩
    rw [hcd1, hev1, hflen]
    omega

/-- The population invariant: the population has exactly
`populationSize` individuals (or none at all, before the first
initialization), each a permutation of `[0, boardSize)`. -/
def PopInv (s : EngState) : Prop :=
  (s.population.length = s.params.populationSize ∨ s.population = []) ∧
  ∀ ind ∈ s.population, PermGenome s.params.boardSize ind.genome

theorem tickStep_inv {s : EngState} {rng : Rng} {fuel : ℕ}
    {res : EngState × List Event × Rng}
    (hs : PopInv s) (h : tickStep s rng fuel = some res) : PopInv res.1 := by
  unfold tickStep at h
  split at h
  · injection h with h
    rw [← h]
    exact hs
  · split at h
    · cases h
    · rename_i cres hcng
      obtain ⟨hl, hall⟩ := createNewGeneration_inv hs.1 hs.2 hcng
      simp only [] at h
      split at h <;>
      · injection h with h
        rw [← h]
        exact ⟨Or.inl hl, hall⟩

theorem initPopulation_inv (p : Params) (rng : Rng) :
    (initPopulation p rng).1.length = p.populationSize ∧
    ∀ ind ∈ (initPopulation p rng).1, PermGenome p.boardSize ind.genome := by
  unfold initPopulation
  obtain ⟨h1, h2⟩ := initPopulationGo_inv p.boardSize p.populationSize [] rng
    (by intro ind hind; cases hind)
  obtain ⟨he1, he2⟩ := @evaluatePopulation_inv p.boardSize _ h2
  refine ⟨?_, he2⟩
  rw [he1, h1]
  simp

theorem handleMessage_inv {s : EngState} {msg : WMsg} {rng : Rng} {fuel : ℕ}
    {res : EngState × List Event × Rng}
    (hs : PopInv s) (h : handleMessage s msg rng fuel = some res) : PopInv res.1 := by
  unfold handleMessage at h
  split at h
  · injection h with h
    rw [← h]
    obtain ⟨h1, h2⟩ := initPopulation_inv (msg.params.getD s.params) rng
    exact ⟨Or.inl h1, h2⟩
  · split at h
    · split at h
      · refine tickStep_inv ?_ h
        obtain ⟨h1, h2⟩ := initPopulation_inv s.params rng
        exact ⟨Or.inl h1, h2⟩
      · refine tickStep_inv ?_ h
        exact ⟨hs.1, hs.2⟩
    · split at h
      · injection h with h
        rw [← h]
        exact ⟨hs.1, hs.2⟩
      · split at h
        · injection h with h
          rw [← h]
          obtain ⟨h1, h2⟩ := initPopulation_inv (msg.params.getD s.params) rng
          exact ⟨Or.inl h1, h2⟩
        · injection h with h
          rw [← h]
          exact hs

theorem stepInput_inv {s : EngState} {i : Inp} {rng : Rng} {fuel : ℕ}
    {res : EngState × List Event × Rng}
    (hs : PopInv s) (h : stepInput s i rng fuel = some res) : PopInv res.1 := by
  cases i with
  | msg m => exact handleMessage_inv hs h
  | tick => exact tickStep_inv hs h

theorem runTrace_inv :
    ∀ (trace : List (Inp × ℕ)) (s : EngState) (rng : Rng) (res : EngState × Rng),
      PopInv s → runTrace s rng trace = some res → PopInv res.1 := by
  intro trace
  induction trace with
  | nil =>
    intro s rng res hs h
    injection h with h
    rw [← h]
    exact hs
  | cons ir rest ih =>
    intro s rng res hs h
    obtain ⟨i, fuel⟩ := ir
    rw [runTrace] at h
    split at h
    · cases h
    · rename_i sres hstep
      exact ih _ _ res (stepInput_inv hs hstep) h

/-- C2: for every message/tick trace and every outcome of the random
draws, every state the engine actually reaches (every step returned,
rather than hanging in the PMX chain loop) has a population whose every
genome is a permutation of `[0, boardSize)`: initialization fills it
with fresh permutations, reproduction accepts a child only after
`validateGenome`, substituting a fresh random individual otherwise, and
the diversity guard only writes fresh random individuals. -/
theorem C2_population_invariant (trace : List (Inp × ℕ)) (rng : Rng)
    (res : EngState × Rng) (h : runTrace initState rng trace = some res) :
    ∀ ind ∈ res.1.population, PermGenome res.1.params.boardSize ind.genome :=
  (runTrace_inv trace initState rng res
    ⟨Or.inr rfl, by intro ind hind; cases hind⟩ h).2

/-- Concrete parameters for the C2 witness: a 1×1 board with a
population of one. -/
def pW2 : Params :=
  { boardSize := 1
    populationSize := 1
    selectionStrategy := .rouletteWheel
    tournamentSize := 5
    crossoverRate := 4/5
    mutationRate := 1/5
    maxGenerations := 10 }

/-- One `init` message carrying `pW2`. -/
def traceW2 : List (Inp × ℕ) := [(.msg ⟨"init", some pW2⟩, 0)]

/-- The state reached by `traceW2` from the initial state on the
all-zero random stream. -/
def resW2 : EngState × Rng :=
  ({ running := false
     params := pW2
     population := [⟨[0], 0⟩]
     generation := 0
     bestSolution := some ⟨[0], 0⟩ }, ⟨[]⟩)

/-- Witness for C2 at a concrete trace. -/
theorem C2_population_invariant_witness :
    runTrace initState ⟨[]⟩ traceW2 = some resW2 ∧
    ∀ ind ∈ resW2.1.population, PermGenome resW2.1.params.boardSize ind.genome :=
  ⟨by with_unfolding_all decide,
   C2_population_invariant traceW2 ⟨[]⟩ resW2 (by with_unfolding_all decide)⟩

/-! ## A started run can hang before emitting a solution (C5) -/

/-- If the generation step's reproduction diverges, the scheduler
iteration diverges. -/
theorem tickStep_none {s : EngState} {rng : Rng} {fuel : ℕ}
    (hrun : s.running = true)
    (h : createNewGeneration s.params s.population rng fuel = none) :
    tickStep s rng fuel = none := by
  unfold tickStep
  rw [if_neg (by simp [hrun])]
  rw [h]

/-- Processing `start` with a zero generation counter re-initializes the
population and immediately runs the first generation step. -/
theorem handleMessage_start_gen0 (s : EngState) (rng : Rng) (fuel : ℕ)
    (hgen : s.generation = 0) :
    handleMessage s ⟨"start", none⟩ rng fuel =
      tickStep
        { s with
          running := true
          population := (initPopulation s.params rng).1 }
        (initPopulation s.params rng).2 fuel := by
  unfold handleMessage
  rw [if_neg (by decide), if_pos rfl, if_pos hgen]

/-- The random stream of the diverging run: eight draws for the `init`
population (all zero), eight draws for the re-initialization done by
`start` (shaping `[[0,1,2,3],[1,0,3,2]]`), two roulette draws selecting
the two as parents, and the three crossover draws of `rngC1`. -/
def rngC5 : Rng :=
  ⟨[0, 0, 0, 0, 0, 0, 0, 0,
    0, 0, 0, 0, 1/4, 0, 1/2, 0,
    0, 1/2,
    0, 1/3, 0]⟩

/-- The engine state right after the `init` message of the C5 run. -/
def sC5 : EngState :=
  { running := false
    params := pC1
    population := [⟨[0, 1, 2, 3], 0⟩, ⟨[0, 1, 2, 3], 0⟩]
    generation := 0
    bestSolution := some ⟨[0, 1, 2, 3], 0⟩ }

/-- The stats event posted by that `init`. -/
def evC5 : List Event :=
  [Event.stats
    { generation := 0
      bestFitness := some 0
      averageFitness := 0
      worstFitness := some 0
      bestGenome := [0, 1, 2, 3]
      solved := false }]

/-- The stream left after the `init` message. -/
def rC5 : Rng := ⟨[0, 0, 0, 0, 1/4, 0, 1/2, 0, 0, 1/2, 0, 1/3, 0]⟩

/-- The population built by `start`'s re-initialization. -/
def popC5 : List Individual := [parentA, parentB]

/-- The stream left for selection and crossover. -/
def rngSel : Rng := ⟨[0, 1/2, 0, 1/3, 0]⟩

/-- C5 (code bug): the run that receives `init` (params `pC1`) and then
`start` on the stream `rngC5`, and nothing else, hangs inside its first
generation step: `start` rebuilds the population as
`[[0,1,2,3],[1,0,3,2]]`, roulette selection draws them as parents, and
the PMX mapping chain stalls on the falsy mapped value `0` (see C1).
For every fuel bound the run is still inside the first generation step
(`none`), so it never stops and never emits a `solution` event, contrary
to the claim that it terminates within `maxGenerations` steps. -/
theorem C5_run_diverges (fuel : ℕ) :
    runTrace initState rngC5
      [(Inp.msg ⟨"init", some pC1⟩, 0), (Inp.msg ⟨"start", none⟩, fuel)] = none := by
  have h1 : stepInput initState (Inp.msg ⟨"init", some pC1⟩) rngC5 0 =
      some (sC5, evC5, rC5) := by with_unfolding_all decide
  have hip : initPopulation sC5.params rC5 = (popC5, rngSel) := by
    with_unfolding_all decide
  have hsel : ∀ f, selectParents pC1 popC5 rngSel f =
      some (parentA, parentB, rngC1) := by
    intro f
    with_unfolding_all rfl
  have hfp : ∀ f, fillPop pC1 popC5 f 1 [parentB] rngSel = none := by
    intro f
    rw [fillPop, hsel f]
    simp only []
    rw [crossover_stalls f]
  have hcng : ∀ f, createNewGeneration pC1 popC5 rngSel f = none := by
    intro f
    have heq : createNewGeneration pC1 popC5 rngSel f =
        (match fillPop pC1 popC5 f 1 [parentB] rngSel with
          | none => none
          | some res =>
            some (checkAndMaintainDiversity pC1 (evaluatePopulation res.1) res.2)) := by
      with_unfolding_all rfl
    rw [heq, hfp f]
  have hstart : stepInput sC5 (Inp.msg ⟨"start", none⟩) rC5 fuel = none := by
    show handleMessage sC5 ⟨"start", none⟩ rC5 fuel = none
    rw [handleMessage_start_gen0 sC5 rC5 fuel rfl, hip]
    exact tickStep_none rfl (hcng fuel)
  rw [runTrace, h1]
  simp only []
  rw [runTrace, hstart]

/-! ## The parameter validator keeps every field in range (C3)

The validator lives in the `useNQueensWorker` hook: `sanitizeParams`
coerces each present field with `Number(...)` (the identity on this
numeric model), `validateParams` clamps each present field into its
documented range, and `updateParams` merges the result over the held
params and posts the merged value to the worker with a `reset` message.
The worker stores whatever `init`/`reset` payload it receives, but the
only payloads the hook ever posts are the defaults (at mount), the
clamped merge (on update), or the held params (on reset). -/

/-- The numeric parameter fields, as JavaScript numbers. -/
structure QParams where
  boardSize : ℚ
  populationSize : ℚ
  tournamentSize : ℚ
  crossoverRate : ℚ
  mutationRate : ℚ
  maxGenerations : ℚ
deriving DecidableEq, Repr

/-- A raw partial payload: each numeric field may be absent. -/
structure QPartial where
  boardSize : Option ℚ
  populationSize : Option ℚ
  tournamentSize : Option ℚ
  crossoverRate : Option ℚ
  mutationRate : Option ℚ
  maxGenerations : Option ℚ
deriving DecidableEq, Repr

/-- Model of `Math.max(lo, Math.min(hi, x))`. -/
def clampQ (lo hi x : ℚ) : ℚ := max lo (min hi x)

/-- The function `validateParams`: clamp each present field into its documented
range; absent fields stay absent. -/
def validateParams (p : QPartial) : QPartial :=
  { boardSize := p.boardSize.map (clampQ 4 50)
    populationSize := p.populationSize.map (clampQ 10 1000)
    tournamentSize := p.tournamentSize.map (clampQ 2 20)
    crossoverRate := p.crossoverRate.map (clampQ 0 1)
    mutationRate := p.mutationRate.map (clampQ 0 1)
    maxGenerations := p.maxGenerations.map (clampQ 10 100000) }

/-- The spread merge `{ ...params, ...validatedParams }`. -/
def mergeParams (base : QParams) (p : QPartial) : QParams :=
  { boardSize := p.boardSize.getD base.boardSize
    populationSize := p.populationSize.getD base.populationSize
    tournamentSize := p.tournamentSize.getD base.tournamentSize
    crossoverRate := p.crossoverRate.getD base.crossoverRate
    mutationRate := p.mutationRate.getD base.mutationRate
    maxGenerations := p.maxGenerations.getD base.maxGenerations }

/-- The hook's (and the worker's) default parameters. -/
def defaultQParams : QParams := ⟨8, 100, 5, 4/5, 1/5, 1000⟩

/-- Every numeric field lies in its documented closed range. -/
def qInRange (p : QParams) : Prop :=
  (4 ≤ p.boardSize ∧ p.boardSize ≤ 50) ∧
  (10 ≤ p.populationSize ∧ p.populationSize ≤ 1000) ∧
  (2 ≤ p.tournamentSize ∧ p.tournamentSize ≤ 20) ∧
  (0 ≤ p.crossoverRate ∧ p.crossoverRate ≤ 1) ∧
  (0 ≤ p.mutationRate ∧ p.mutationRate ≤ 1) ∧
  (10 ≤ p.maxGenerations ∧ p.maxGenerations ≤ 100000)

instance (p : QParams) : Decidable (qInRange p) := by
  unfold qInRange; infer_instance

/-- The hook's held params together with the params last stored by the
worker's `init`/`reset` handler. -/
structure SysState where
  hookParams : QParams
  engineParams : QParams
deriving DecidableEq, Repr

/-- Caller-side commands: mount (posts `init` with the defaults),
`updateParams` with an arbitrary raw payload, start, pause, and reset
(posts `reset` with the held params). -/
inductive HookCmd where
  | mount
  | update (raw : QPartial)
  | start
  | pause
  | reset
deriving DecidableEq, Repr

/-- One hook command followed by the worker applying the posted payload
(`params = newParams` on `init`/`reset`; `start`/`pause` carry none). -/
def hookStep (s : SysState) (c : HookCmd) : SysState :=
  match c with
  | .mount => { s with engineParams := defaultQParams }
  | .update raw =>
    let merged := mergeParams s.hookParams (validateParams raw)
    { hookParams := merged, engineParams := merged }
  | .start => s
  | .pause => s
  | .reset => { s with engineParams := s.hookParams }

/-- Run a sequence of caller commands. -/
def hookRun : SysState → List HookCmd → SysState
  | s, [] => s
  | s, c :: rest => hookRun (hookStep s c) rest

/-- The system right after mount: both sides hold the defaults. -/
def sysInit : SysState := ⟨defaultQParams, defaultQParams⟩

theorem clampQ_mem {lo hi : ℚ} (x : ℚ) (h : lo ≤ hi) :
    lo ≤ clampQ lo hi x ∧ clampQ lo hi x ≤ hi :=
  ⟨le_max_left lo _, max_le h (min_le_left hi x)⟩

theorem mergeParams_validated_inRange {base : QParams} (p : QPartial)
    (hb : qInRange base) : qInRange (mergeParams base (validateParams p)) := by
  obtain ⟨h1, h2, h3, h4, h5, h6⟩ := hb
  refine ⟨?_, ?_, ?_, ?_, ?_, ?_⟩ <;>
    simp only [mergeParams, validateParams]
  · cases p.boardSize with
    | none => exact h1
    | some x => exact clampQ_mem x (by norm_num)
  · cases p.populationSize with
    | none => exact h2
    | some x => exact clampQ_mem x (by norm_num)
  · cases p.tournamentSize with
    | none => exact h3
    | some x => exact clampQ_mem x (by norm_num)
  · cases p.crossoverRate with
    | none => exact h4
    | some x => exact clampQ_mem x (by norm_num)
  · cases p.mutationRate with
    | none => exact h5
    | some x => exact clampQ_mem x (by norm_num)
  · cases p.maxGenerations with
    | none => exact h6
    | some x => exact clampQ_mem x (by norm_num)

theorem defaultQParams_inRange : qInRange defaultQParams := by
  unfold qInRange defaultQParams
  norm_num

theorem hookRun_inv :
    ∀ (cmds : List HookCmd) (s : SysState),
      qInRange s.hookParams → qInRange s.engineParams →
      qInRange (hookRun s cmds).hookParams ∧
      qInRange (hookRun s cmds).engineParams := by
  intro cmds
  induction cmds with
  | nil => intro s h1 h2; exact ⟨h1, h2⟩
  | cons c rest ih =>
    intro s h1 h2
    rw [hookRun]
    cases c with
    | mount => exact ih _ h1 defaultQParams_inRange
    | update raw =>
      exact ih _ (mergeParams_validated_inRange raw h1)
        (mergeParams_validated_inRange raw h1)
    | start => exact ih _ h1 h2
    | pause => exact ih _ h1 h2
    | reset => exact ih _ h1 h1

/-- A generation step never writes the engine's params. -/
theorem tickStep_params {s : EngState} {rng : Rng} {fuel : ℕ}
    {res : EngState × List Event × Rng} (h : tickStep s rng fuel = some res) :
    res.1.params = s.params := by
  unfold tickStep at h
  split at h
  · injection h with h
    rw [← h]
  · split at h
    · cases h
    · simp only [] at h
      split at h <;>
      · injection h with h
        rw [← h]

/-- C3: whenever the engine observes its parameters — after any sequence
of caller commands with arbitrary raw payloads, and across every
generation step (which leaves params untouched) — every numeric field
lies in its documented closed range, enforced by the hook-side
validator's clamping rather than by the worker. -/
theorem C3_params_in_range (cmds : List HookCmd) :
    qInRange (hookRun sysInit cmds).engineParams ∧
    (∀ (s : EngState) (rng : Rng) (fuel : ℕ) (res : EngState × List Event × Rng),
      tickStep s rng fuel = some res → res.1.params = s.params) :=
  ⟨(hookRun_inv cmds sysInit defaultQParams_inRange defaultQParams_inRange).2,
   fun _ _ _ _ h => tickStep_params h⟩
end NQueens
